import Mathlib

/- Formal model of the Profit Mix Optimizer core (src/app.py).

   The development shallowly embeds the optimization engine: the data model
   (`Fund`, the aggregate profile, the target and target-weight mappings, the
   service map), the scoring functions `_blend`, `_deviation`, `_svc`,
   `_score`, the candidate search for blend sizes 1, 2 and 3 (`pool1`,
   `pool2`, `pool3` with the weight grids `grid2`, `grid1`/`weightTriples`),
   the diversified selector (`strictPass`, `relaxedPass`, `twoPass`,
   `diversify`) and the entry point `compute`.

   Real numbers of the source are modelled as rationals.  The stable
   ascending sort `candidates.sort(key=score)` is modelled by insertion sort
   with the non-strict score order, which is the unique stable ascending
   sort.  Python sets of used names/providers are modelled by lists with
   membership tests; set-intersection emptiness becomes a bounded
   existential. -/

attribute [local semireducible] Rat.add Rat.mul Rat.sub Rat.inv

/-- A fund record, mirroring the frozen `Fund` dataclass of src/app.py. -/
structure Fund where
  sheet : String
  name : String
  provider : String
  equity : ℚ
  abroad : ℚ
  fx : ℚ
  illiquid : ℚ
  sharpe : ℚ
deriving DecidableEq

/-- The aggregate profile produced by `_blend` (the dict with keys
equity/abroad/fx/illiquid/sharpe). -/
structure Profile where
  equity : ℚ
  abroad : ℚ
  fx : ℚ
  illiquid : ℚ
  sharpe : ℚ
deriving DecidableEq

/-- The target mapping (keys equity/abroad/fx/illiquid). -/
structure Target where
  equity : ℚ
  abroad : ℚ
  fx : ℚ
  illiquid : ℚ
deriving DecidableEq

/-- The target-weight mapping (keys equity/abroad/fx/illiquid). -/
structure TargetW where
  equity : ℚ
  abroad : ℚ
  fx : ℚ
  illiquid : ℚ
deriving DecidableEq

/-- The four deviation metric keys. -/
inductive MetricKey where
  | equity
  | abroad
  | fx
  | illiquid
deriving DecidableEq

/-- Field lookup of an aggregate profile at a metric key. -/
def Profile.metric (v : Profile) : MetricKey → ℚ
  | .equity => v.equity
  | .abroad => v.abroad
  | .fx => v.fx
  | .illiquid => v.illiquid

/-- Field lookup of a target at a metric key. -/
def Target.metric (t : Target) : MetricKey → ℚ
  | .equity => t.equity
  | .abroad => t.abroad
  | .fx => t.fx
  | .illiquid => t.illiquid

/-- Field lookup of the target weights at a metric key. -/
def TargetW.metric (tw : TargetW) : MetricKey → ℚ
  | .equity => tw.equity
  | .abroad => tw.abroad
  | .fx => tw.fx
  | .illiquid => tw.illiquid

/-- The four metric keys, in the order the source sums them. -/
def metricKeys : List MetricKey := [.equity, .abroad, .fx, .illiquid]

/-- Model of `_blend`: each field is the weight-dot-product of the
corresponding per-fund field over `zip(ws, fs)`. -/
def _blend (fs : List Fund) (ws : List ℚ) : Profile :=
  { equity := ((ws.zip fs).map (fun p => p.1 * p.2.equity)).sum
    abroad := ((ws.zip fs).map (fun p => p.1 * p.2.abroad)).sum
    fx := ((ws.zip fs).map (fun p => p.1 * p.2.fx)).sum
    illiquid := ((ws.zip fs).map (fun p => p.1 * p.2.illiquid)).sum
    sharpe := ((ws.zip fs).map (fun p => p.1 * p.2.sharpe)).sum }

/-- Model of `_deviation`: weighted sum of absolute differences over the four
metrics, in source order. -/
def _deviation (v : Profile) (t : Target) (tw : TargetW) : ℚ :=
  tw.equity * |v.equity - t.equity|
    + tw.abroad * |v.abroad - t.abroad|
    + tw.fx * |v.fx - t.fx|
    + tw.illiquid * |v.illiquid - t.illiquid|

/-- Model of Python `dict.get(k, d)` on an association-list service map. -/
def getD (m : List (String × ℚ)) (k : String) (d : ℚ) : ℚ :=
  (m.lookup k).getD d

/-- Model of `_svc`: weight-dot-product of per-provider service scores with
default fallback. -/
def _svc (provs : List String) (ws : List ℚ) (smap : List (String × ℚ))
    (dflt : ℚ) : ℚ :=
  ((ws.zip provs).map (fun p => p.1 * getD smap p.2 dflt)).sum

/-- Model of `_score`: lower is better. -/
def _score (dev sharpe svc sharpe_w service_w : ℚ) : ℚ :=
  dev - sharpe_w * sharpe - service_w * (svc / 100)

/-- A candidate record, mirroring the dicts built inside `compute`. -/
structure Candidate where
  funds : List Fund
  weights : List ℚ
  vals : Profile
  deviation : ℚ
  svc : ℚ
  score : ℚ
deriving DecidableEq

/-- The scoring context of `compute`: the target, target weights, sharpe and
service weights, service map and default service score, bundled. -/
structure Ctx where
  target : Target
  tw : TargetW
  sharpe_w : ℚ
  service_w : ℚ
  svc_map : List (String × ℚ)
  dflt_svc : ℚ

/-- Builds the candidate dict for a fund list and weight vector, exactly as
the n=2 and n=3 branches of `compute` do (profile, deviation, blended
service, score). -/
def evalCand (ctx : Ctx) (fs : List Fund) (ws : List ℚ) : Candidate :=
  let v := _blend fs ws
  let dev := _deviation v ctx.target ctx.tw
  let svc := _svc (fs.map Fund.provider) ws ctx.svc_map ctx.dflt_svc
  ⟨fs, ws, v, dev, svc, _score dev v.sharpe svc ctx.sharpe_w ctx.service_w⟩

/-- The single-fund candidate of the n=1 branch (service score looked up
directly from the map). -/
def cand1 (ctx : Ctx) (f : Fund) : Candidate :=
  let v := _blend [f] [1]
  let dev := _deviation v ctx.target ctx.tw
  let svc := getD ctx.svc_map f.provider ctx.dflt_svc
  ⟨[f], [1], v, dev, svc, _score dev v.sharpe svc ctx.sharpe_w ctx.service_w⟩

/-- The n=1 candidate pool: one candidate per fund. -/
def pool1 (ctx : Ctx) (funds : List Fund) : List Candidate :=
  funds.map (cand1 ctx)

/-- The running minimum of the per-subset weight-grid search: keep the
incumbent unless the new candidate scores strictly lower. -/
def better (best : Option Candidate) (c : Candidate) : Option Candidate :=
  match best with
  | none => some c
  | some b => if c.score < b.score then some c else some b

/-- Folds `better` over the evaluations of a list, as the inner weight-grid
loops of `compute` do. -/
def bestOf (l : List α) (f : α → Candidate) : Option Candidate :=
  l.foldl (fun b x => better b (f x)) none

/-- The n=2 weight grid: 101 points 0.00, 0.01, ..., 1.00. -/
def grid2 : List ℚ :=
  (List.range 101).map (fun i => (i : ℚ) / 100)

/-- Best-scoring weight split for a pair of funds over `grid2`. -/
def best2 (ctx : Ctx) (f1 f2 : Fund) : Option Candidate :=
  bestOf grid2 (fun w1 => evalCand ctx [f1, f2] [w1, 1 - w1])

/-- All unordered pairs of list elements, in `itertools.combinations` order. -/
def combos2 : List α → List (α × α)
  | [] => []
  | x :: xs => xs.map (fun y => (x, y)) ++ combos2 xs

/-- All unordered triples of list elements, in `itertools.combinations`
order. -/
def combos3 : List α → List (α × α × α)
  | [] => []
  | x :: xs => (combos2 xs).map (fun p => (x, p.1, p.2)) ++ combos3 xs

/-- The provider filter of the n=2 branch: a pair survives unless
`same_prov_only` is set and the providers differ. -/
def pairOk (spo : Bool) (p : Fund × Fund) : Bool :=
  !(spo && p.1.provider != p.2.provider)

/-- The n=2 candidate pool: the best split of every surviving pair. -/
def pool2 (ctx : Ctx) (spo : Bool) (funds : List Fund) : List Candidate :=
  (combos2 funds).filterMap (fun p =>
    if pairOk spo p then best2 ctx p.1 p.2 else none)

/-- The n=3 grid step (0.05). -/
def step : ℚ := 5 / 100

/-- Model of Python `round(x, 3)`; on the exact multiples of 1/1000 the
source feeds it, it is the identity. -/
def round3 (x : ℚ) : ℚ :=
  ((x * 1000 + 1 / 2).floor : ℚ) / 1000

/-- The n=3 per-coordinate grid `[round(i*step, 3) for i in range(int(1/step)+1)]`. -/
def grid1 : List ℚ :=
  (List.range (((1 : ℚ) / step).floor.toNat + 1)).map
    (fun i => round3 ((i : ℚ) * step))

/-- The n=3 simplex tolerance 1e-9. -/
def tol : ℚ := 1 / 1000000000

/-- The (w1, w2, w3) weight triples the n=3 branch evaluates, in loop order:
w1 and w2 range over `grid1`; `w3 = round(1 - w1 - w2, 3)` is skipped when it
falls outside [0,1] beyond `tol`, otherwise clamped into [0,1]. -/
def weightTriples : List (ℚ × ℚ × ℚ) :=
  (grid1.map (fun w1 => grid1.filterMap (fun w2 =>
    if round3 (1 - w1 - w2) < -tol ∨ round3 (1 - w1 - w2) > 1 + tol then none
    else some (w1, w2, max 0 (min 1 (round3 (1 - w1 - w2))))))).flatten

/-- Best-scoring weight split for a triple of funds over the simplex grid. -/
def best3 (ctx : Ctx) (f1 f2 f3 : Fund) : Option Candidate :=
  bestOf weightTriples (fun t => evalCand ctx [f1, f2, f3] [t.1, t.2.1, t.2.2])

/-- The provider filter of the n=3 branch: a triple survives unless
`same_prov_only` is set and the three providers are not all equal. -/
def tripleOk (spo : Bool) (t : Fund × Fund × Fund) : Bool :=
  !(spo && !(t.1.provider == t.2.1.provider && t.2.1.provider == t.2.2.provider))

/-- The n=3 candidate pool: the best split of every surviving triple. -/
def pool3 (ctx : Ctx) (spo : Bool) (funds : List Fund) : List Candidate :=
  (combos3 funds).filterMap (fun t =>
    if tripleOk spo t then best3 ctx t.1 t.2.1 t.2.2 else none)

/-- The candidate pool built by `compute` for blend size n (the final `else`
of the source handles every n other than 1 and 2 via the triple branch). -/
def candidatePool (ctx : Ctx) (spo : Bool) (n : ℕ) (funds : List Fund) :
    List Candidate :=
  if n = 1 then pool1 ctx funds
  else if n = 2 then pool2 ctx spo funds
  else pool3 ctx spo funds

/-- The fund names of a candidate. -/
def namesOf (c : Candidate) : List String := c.funds.map Fund.name

/-- The providers of a candidate. -/
def provsOf (c : Candidate) : List String := c.funds.map Fund.provider

/-- Strict diversity pass: skip a candidate whose fund names were already
used, or (unless `same_prov_only`) whose providers were already used; accept
otherwise, stopping at 3.  Returns (chosen, used providers, used names). -/
def strictPass (spo : Bool) :
    List Candidate → List Candidate → List String → List String →
      List Candidate × List String × List String
  | [], chosen, usedP, usedN => (chosen, usedP, usedN)
  | c :: rest, chosen, usedP, usedN =>
    if ∃ s ∈ namesOf c, s ∈ usedN then
      strictPass spo rest chosen usedP usedN
    else if spo = false ∧ ∃ s ∈ provsOf c, s ∈ usedP then
      strictPass spo rest chosen usedP usedN
    else if (chosen ++ [c]).length = 3 then
      (chosen ++ [c], usedP ++ provsOf c, usedN ++ namesOf c)
    else
      strictPass spo rest (chosen ++ [c]) (usedP ++ provsOf c)
        (usedN ++ namesOf c)

/-- Relaxed diversity pass: skip only already-selected candidates and
already-used fund names; accept otherwise, stopping at 3.  Returns (chosen,
used names). -/
def relaxedPass :
    List Candidate → List Candidate → List String →
      List Candidate × List String
  | [], chosen, usedN => (chosen, usedN)
  | c :: rest, chosen, usedN =>
    if c ∈ chosen then relaxedPass rest chosen usedN
    else if ∃ s ∈ namesOf c, s ∈ usedN then relaxedPass rest chosen usedN
    else if (chosen ++ [c]).length = 3 then (chosen ++ [c], usedN ++ namesOf c)
    else relaxedPass rest (chosen ++ [c]) (usedN ++ namesOf c)

/-- The two diversity passes of the selector (the relaxed pass only runs when
the strict pass selected fewer than 3). -/
def twoPass (spo : Bool) (cands : List Candidate) : List Candidate :=
  if (strictPass spo cands [] [] []).1.length < 3 then
    (relaxedPass cands (strictPass spo cands [] [] []).1
      (strictPass spo cands [] [] []).2.2).1
  else (strictPass spo cands [] [] []).1

/-- The full Diversified Selector: two passes, then the unconditional
take-top-3 fallback if still empty. -/
def diversify (spo : Bool) (cands : List Candidate) : List Candidate :=
  if twoPass spo cands = [] then cands.take 3 else twoPass spo cands

/-- Score order on candidates (the sort key of `candidates.sort`). -/
def scoreLe (a b : Candidate) : Prop := a.score ≤ b.score

instance : DecidableRel scoreLe :=
  fun a b => inferInstanceAs (Decidable (a.score ≤ b.score))

instance : IsTotal Candidate scoreLe :=
  ⟨fun a b => le_total a.score b.score⟩

instance : IsTrans Candidate scoreLe :=
  ⟨fun _ _ _ h h' => le_trans h h'⟩

/-- The stable ascending sort by score. -/
def sortByScore (l : List Candidate) : List Candidate :=
  l.insertionSort scoreLe

/-- The insufficient-catalog-size message. -/
def insufficientMsg (n k : ℕ) : String :=
  "נדרשות לפחות " ++ toString n ++ " קרנות; יש רק " ++ toString k ++ "."

/-- The no-valid-combinations message. -/
def noCombMsg : String :=
  "לא נמצאו שילובים תקינים. נסה להרחיב הגדרות או להפחית מגבלות."

/-- Model of `compute`, the optimize entry point: size check, candidate
enumeration, empty-pool check, sort, diversified selection. -/
def compute (funds : List Fund) (ctx : Ctx) (spo : Bool) (n : ℕ) :
    List Candidate × String :=
  if funds.length < n then ([], insufficientMsg n funds.length)
  else if candidatePool ctx spo n funds = [] then ([], noCombMsg)
  else (diversify spo (sortByScore (candidatePool ctx spo n funds)), "")

/-- Two candidates share no fund name. -/
def NoSharedName (a b : Candidate) : Prop :=
  ∀ s ∈ namesOf a, s ∉ namesOf b

instance : ∀ a b : Candidate, Decidable (NoSharedName a b) :=
  fun _ _ => List.decidableBAll _ _

/-- The deviation metric sum stated over the key list, matching `_deviation`. -/
theorem deviation_eq_keySum (v : Profile) (t : Target) (tw : TargetW) :
    _deviation v t tw =
      (metricKeys.map (fun k => tw.metric k * |v.metric k - t.metric k|)).sum := by
  simp only [_deviation, metricKeys, Profile.metric, Target.metric,
    TargetW.metric, List.map_cons, List.map_nil, List.sum_cons, List.sum_nil]
  ring

/-- C4: the deviation equals the target-weighted sum of absolute differences
over the four metric keys, and the final score equals
deviation - sharpe_weight * sharpe - service_weight * (blendedService / 100). -/
theorem deviation_and_score_formulas :
    (∀ (v : Profile) (t : Target) (tw : TargetW),
      _deviation v t tw =
        (metricKeys.map (fun k => tw.metric k * |v.metric k - t.metric k|)).sum)
    ∧ (∀ dev sharpe svc sharpe_w service_w : ℚ,
      _score dev sharpe svc sharpe_w service_w =
        dev - sharpe_w * sharpe - service_w * (svc / 100)) :=
  ⟨deviation_eq_keySum, fun _ _ _ _ _ => rfl⟩

/-- C8: blending a single fund with weight 1 reproduces its profile exactly. -/
theorem blend_single_identity (f : Fund) :
    _blend [f] [1] = ⟨f.equity, f.abroad, f.fx, f.illiquid, f.sharpe⟩ := by
  simp [_blend]

/-- C9: the score is monotonically non-decreasing in the deviation (sharpe
and service contributions fixed), and monotonically non-increasing in
sharpe_weight * sharpe and in service_weight * blendedService (deviation
fixed). -/
theorem score_monotonicity :
    (∀ dev dev' sharpe svc sharpe_w service_w : ℚ, dev ≤ dev' →
      _score dev sharpe svc sharpe_w service_w ≤
        _score dev' sharpe svc sharpe_w service_w)
    ∧ (∀ dev sharpe sharpe' svc sharpe_w sharpe_w' service_w : ℚ,
      sharpe_w * sharpe ≤ sharpe_w' * sharpe' →
      _score dev sharpe' svc sharpe_w' service_w ≤
        _score dev sharpe svc sharpe_w service_w)
    ∧ (∀ dev sharpe svc svc' sharpe_w service_w service_w' : ℚ,
      service_w * svc ≤ service_w' * svc' →
      _score dev sharpe svc' sharpe_w service_w' ≤
        _score dev sharpe svc sharpe_w service_w) := by
  refine ⟨?_, ?_, ?_⟩ <;> intro _ _ _ _ _ _
  · intro h
    simp only [_score]
    linarith
  · intro _ h
    simp only [_score]
    linarith
  · intro _ h
    simp only [_score]
    linarith

/-- Witness for C9 at concrete inputs. -/
theorem score_monotonicity_witness :
    ((0 : ℚ) ≤ 1 ∧
      _score 0 0 0 0 0 ≤ _score 1 0 0 0 0) ∧
    ((0 : ℚ) * 0 ≤ 0 * 0 ∧
      _score 0 0 0 0 0 ≤ _score 0 0 0 0 0) ∧
    ((0 : ℚ) * 0 ≤ 0 * 0 ∧
      _score 0 0 0 0 0 ≤ _score 0 0 0 0 0) :=
  ⟨⟨by norm_num, score_monotonicity.1 0 1 0 0 0 0 (by norm_num)⟩,
   ⟨le_refl _, score_monotonicity.2.1 0 0 0 0 0 0 0 (le_refl _)⟩,
   ⟨le_refl _, score_monotonicity.2.2 0 0 0 0 0 0 0 (le_refl _)⟩⟩

/-- The insufficient-catalog message is never the empty string. -/
theorem insufficientMsg_ne_empty (n k : ℕ) : insufficientMsg n k ≠ "" := by
  intro he
  have h : (insufficientMsg n k).length = 0 := by rw [he]; rfl
  simp only [insufficientMsg, String.length_append] at h
  have h2 : (0 : ℕ) < ("נדרשות לפחות " : String).length := by decide
  omega

/-- C3: with fewer funds than the requested blend size, `compute` returns the
empty candidate list together with the human-readable insufficiency message
(an error state, not an exception), before any candidate pool is built. -/
theorem insufficient_catalog (funds : List Fund) (ctx : Ctx) (spo : Bool)
    (n : ℕ) (h : funds.length < n) :
    compute funds ctx spo n = ([], insufficientMsg n funds.length) ∧
      insufficientMsg n funds.length ≠ "" := by
  refine ⟨?_, insufficientMsg_ne_empty n funds.length⟩
  simp [compute, h]

/-- Witness for C3: a catalog with a single fund and a requested pair. -/
theorem insufficient_catalog_witness :
    compute [⟨"s", "X", "p", 50, 50, 20, 5, 1⟩]
        ⟨⟨40, 60, 30, 7⟩, ⟨1, 1, 1, 1⟩, 0, 0, [], 70⟩ false 2 =
      ([], insufficientMsg 2 1) ∧ insufficientMsg 2 1 ≠ "" :=
  insufficient_catalog _ _ false 2 (by decide)

/-- Folding the running minimum from an incumbent yields a minimum over the
incumbent and all evaluations. -/
theorem bestOf_from_some (f : α → Candidate) :
    ∀ (l : List α) (b : Candidate),
      ∃ c, l.foldl (fun acc x => better acc (f x)) (some b) = some c ∧
        (c = b ∨ c ∈ l.map f) ∧ c.score ≤ b.score ∧
        ∀ x ∈ l, c.score ≤ (f x).score := by
  intro l
  induction l with
  | nil =>
    intro b
    exact ⟨b, rfl, Or.inl rfl, le_refl _, by simp⟩
  | cons x xs ih =>
    intro b
    by_cases h : (f x).score < b.score
    · obtain ⟨c, hc, hm, hle, hall⟩ := ih (f x)
      refine ⟨c, ?_, ?_, ?_, ?_⟩
      · simpa [better, h] using hc
      · rcases hm with hm | hm
        · exact Or.inr (by simp [hm])
        · exact Or.inr (by simp; right; simpa using hm)
      · exact le_trans hle (le_of_lt h)
      · intro y hy
        rcases List.mem_cons.mp hy with rfl | hy
        · exact hle
        · exact hall y hy
    · obtain ⟨c, hc, hm, hle, hall⟩ := ih b
      refine ⟨c, ?_, ?_, hle, ?_⟩
      · simpa [better, h] using hc
      · rcases hm with hm | hm
        · exact Or.inl hm
        · exact Or.inr (by simp; right; simpa using hm)
      · intro y hy
        rcases List.mem_cons.mp hy with rfl | hy
        · exact le_trans hle (not_lt.mp h)
        · exact hall y hy

/-- On a non-empty list, the weight-grid fold returns a candidate that is an
evaluation and minimizes the score among all evaluations. -/
theorem bestOf_spec (f : α → Candidate) (l : List α) (hl : l ≠ []) :
    ∃ c, bestOf l f = some c ∧ c ∈ l.map f ∧
      ∀ x ∈ l, c.score ≤ (f x).score := by
  obtain ⟨x, xs, rfl⟩ := List.exists_cons_of_ne_nil hl
  obtain ⟨c, hc, hm, hle, hall⟩ := bestOf_from_some f xs (f x)
  refine ⟨c, ?_, ?_, ?_⟩
  · simpa [bestOf, better] using hc
  · rcases hm with rfl | hm
    · simp
    · simp; right; simpa using hm
  · intro y hy
    rcases List.mem_cons.mp hy with rfl | hy
    · exact hle
    · exact hall y hy

/-- The n=2 grid is non-empty. -/
theorem grid2_ne_nil : grid2 ≠ [] := by
  have h : grid2.length = 101 := by decide
  intro he
  rw [he] at h
  simp at h

/-- Every surviving pair contributes exactly one (best) candidate. -/
theorem best2_isSome (ctx : Ctx) (f1 f2 : Fund) :
    ∃ c, best2 ctx f1 f2 = some c ∧
      c ∈ grid2.map (fun w1 => evalCand ctx [f1, f2] [w1, 1 - w1]) ∧
      ∀ w1 ∈ grid2, c.score ≤ (evalCand ctx [f1, f2] [w1, 1 - w1]).score :=
  bestOf_spec _ grid2 grid2_ne_nil

/-- A guarded filterMap whose guard-passing entries always produce a value
has as many outputs as guard-passing entries. -/
theorem filterMap_guard_length (p : α → Bool) (f : α → Option Candidate)
    (hf : ∀ a, p a = true → ∃ c, f a = some c) :
    ∀ l : List α,
      (l.filterMap (fun a => if p a then f a else none)).length =
        (l.filter p).length := by
  intro l
  induction l with
  | nil => rfl
  | cons a as ih =>
    by_cases h : p a
    · obtain ⟨c, hc⟩ := hf a h
      simp [List.filterMap_cons, List.filter_cons, h, hc, ih]
    · simp [List.filterMap_cons, List.filter_cons, h, ih]

/-- A guarded filterMap is non-empty as soon as some entry passes the guard. -/
theorem filterMap_guard_ne_nil (p : α → Bool) (f : α → Option Candidate)
    (hf : ∀ a, p a = true → ∃ c, f a = some c) (l : List α)
    (hex : ∃ a ∈ l, p a) :
    l.filterMap (fun a => if p a then f a else none) ≠ [] := by
  intro he
  have h1 : (l.filter p).length = 0 := by
    rw [← filterMap_guard_length p f hf l, he]
    rfl
  obtain ⟨a, ha, hpa⟩ := hex
  have h2 : a ∈ l.filter p := List.mem_filter.mpr ⟨ha, hpa⟩
  rw [List.length_eq_zero] at h1
  rw [h1] at h2
  simp at h2

/-- The number of unordered pairs is F choose 2. -/
theorem combos2_length : ∀ l : List α, (combos2 l).length = Nat.choose l.length 2 := by
  intro l
  induction l with
  | nil => rfl
  | cons x xs ih =>
    simp only [combos2, List.length_append, List.length_map, ih, List.length_cons]
    rw [Nat.choose_succ_succ, Nat.choose_one_right]

/-- The sort of the candidate pool is a permutation of the pool. -/
theorem sortByScore_perm (l : List Candidate) : List.Perm (sortByScore l) l :=
  List.perm_insertionSort scoreLe l

/-- The sorted pool is sorted by score. -/
theorem sortByScore_sorted (l : List Candidate) :
    List.Sorted scoreLe (sortByScore l) :=
  List.sorted_insertionSort scoreLe l

/-- Sorting preserves non-emptiness. -/
theorem sortByScore_ne_nil {l : List Candidate} (h : l ≠ []) :
    sortByScore l ≠ [] := by
  intro he
  have := (sortByScore_perm l).length_eq
  rw [he] at this
  exact h (List.length_eq_zero.mp this.symm)

/-- The strict pass only appends to the already-chosen list, and what it
appends is a sublist of the remaining pool. -/
theorem strictPass_prefix (spo : Bool) :
    ∀ (cs chosen : List Candidate) (usedP usedN : List String),
      ∃ t, (strictPass spo cs chosen usedP usedN).1 = chosen ++ t ∧
        t.Sublist cs := by
  intro cs
  induction cs with
  | nil =>
    intro chosen usedP usedN
    exact ⟨[], by simp [strictPass], List.nil_sublist _⟩
  | cons c rest ih =>
    intro chosen usedP usedN
    rw [strictPass]
    split_ifs with h1 h2 h3
    · obtain ⟨t, ht, hs⟩ := ih chosen usedP usedN
      exact ⟨t, ht, hs.cons c⟩
    · obtain ⟨t, ht, hs⟩ := ih chosen usedP usedN
      exact ⟨t, ht, hs.cons c⟩
    · exact ⟨[c], rfl, (List.nil_sublist rest).cons₂ c⟩
    · obtain ⟨t, ht, hs⟩ :=
        ih (chosen ++ [c]) (usedP ++ provsOf c) (usedN ++ namesOf c)
      exact ⟨c :: t, by rw [ht, List.append_assoc]; rfl, hs.cons₂ c⟩

/-- The strict pass never selects more than 3 candidates. -/
theorem strictPass_length_le (spo : Bool) :
    ∀ (cs chosen : List Candidate) (usedP usedN : List String),
      chosen.length < 3 →
      (strictPass spo cs chosen usedP usedN).1.length ≤ 3 := by
  intro cs
  induction cs with
  | nil =>
    intro chosen usedP usedN h
    simpa [strictPass] using le_of_lt h
  | cons c rest ih =>
    intro chosen usedP usedN h
    rw [strictPass]
    split_ifs with h1 h2 h3
    · exact ih chosen usedP usedN h
    · exact ih chosen usedP usedN h
    · exact le_of_eq h3
    · refine ih _ _ _ ?_
      have hl : (chosen ++ [c]).length = chosen.length + 1 := by simp
      omega

/-- On a non-empty pool with nothing yet used, the strict pass selects the
head of the pool first. -/
theorem strictPass_first (spo : Bool) (c : Candidate) (rest : List Candidate) :
    ∃ t, (strictPass spo (c :: rest) [] [] []).1 = c :: t := by
  rw [strictPass]
  rw [if_neg (by simp), if_neg (by simp)]
  rw [if_neg (by simp)]
  obtain ⟨t, ht, _⟩ :=
    strictPass_prefix spo rest ([] ++ [c]) ([] ++ provsOf c) ([] ++ namesOf c)
  exact ⟨t, by rw [ht]; rfl⟩

/-- The used-name set accumulated by the strict pass is exactly the names of
the selected candidates. -/
theorem strictPass_usedN (spo : Bool) :
    ∀ (cs chosen : List Candidate) (usedP usedN : List String),
      (∀ s, s ∈ usedN ↔ ∃ d ∈ chosen, s ∈ namesOf d) →
      ∀ s, s ∈ (strictPass spo cs chosen usedP usedN).2.2 ↔
        ∃ d ∈ (strictPass spo cs chosen usedP usedN).1, s ∈ namesOf d := by
  intro cs
  induction cs with
  | nil =>
    intro chosen usedP usedN h s
    simpa [strictPass] using h s
  | cons c rest ih =>
    intro chosen usedP usedN h
    rw [strictPass]
    split_ifs with h1 h2 h3
    · exact ih chosen usedP usedN h
    · exact ih chosen usedP usedN h
    · intro s
      simp only [List.mem_append, List.mem_singleton, h s]
      constructor
      · rintro (⟨d, hd, hs⟩ | hs)
        · exact ⟨d, Or.inl hd, hs⟩
        · exact ⟨c, Or.inr rfl, hs⟩
      · rintro ⟨d, hd | rfl, hs⟩
        · exact Or.inl ⟨d, hd, hs⟩
        · exact Or.inr hs
    · refine ih _ _ _ ?_
      intro s
      simp only [List.mem_append, List.mem_singleton, h s]
      constructor
      · rintro (⟨d, hd, hs⟩ | hs)
        · exact ⟨d, Or.inl hd, hs⟩
        · exact ⟨c, Or.inr rfl, hs⟩
      · rintro ⟨d, hd | rfl, hs⟩
        · exact Or.inl ⟨d, hd, hs⟩
        · exact Or.inr hs

/-- The strict pass keeps the selection free of shared fund names, and keeps
every selected name inside the accumulated used-name set. -/
theorem strictPass_pairwise (spo : Bool) :
    ∀ (cs chosen : List Candidate) (usedP usedN : List String),
      chosen.Pairwise NoSharedName →
      (∀ d ∈ chosen, ∀ s ∈ namesOf d, s ∈ usedN) →
      (strictPass spo cs chosen usedP usedN).1.Pairwise NoSharedName ∧
        ∀ d ∈ (strictPass spo cs chosen usedP usedN).1,
          ∀ s ∈ namesOf d, s ∈ (strictPass spo cs chosen usedP usedN).2.2 := by
  intro cs
  induction cs with
  | nil =>
    intro chosen usedP usedN hp hn
    exact ⟨by simpa [strictPass] using hp, by simpa [strictPass] using hn⟩
  | cons c rest ih =>
    intro chosen usedP usedN hp hn
    rw [strictPass]
    split_ifs with h1 h2 h3
    · exact ih chosen usedP usedN hp hn
    · exact ih chosen usedP usedN hp hn
    · constructor
      · rw [List.pairwise_append]
        refine ⟨hp, List.pairwise_singleton _ _, ?_⟩
        intro a ha b hb
        rw [List.mem_singleton] at hb
        subst hb
        intro s hs hsc
        exact h1 ⟨s, hsc, hn a ha s hs⟩
      · intro d hd s hs
        rcases List.mem_append.mp hd with hd | hd
        · exact List.mem_append.mpr (Or.inl (hn d hd s hs))
        · rw [List.mem_singleton] at hd
          subst hd
          exact List.mem_append.mpr (Or.inr hs)
    · refine ih _ _ _ ?_ ?_
      · rw [List.pairwise_append]
        refine ⟨hp, List.pairwise_singleton _ _, ?_⟩
        intro a ha b hb
        rw [List.mem_singleton] at hb
        subst hb
        intro s hs hsc
        exact h1 ⟨s, hsc, hn a ha s hs⟩
      · intro d hd s hs
        rcases List.mem_append.mp hd with hd | hd
        · exact List.mem_append.mpr (Or.inl (hn d hd s hs))
        · rw [List.mem_singleton] at hd
          subst hd
          exact List.mem_append.mpr (Or.inr hs)

/-- The relaxed pass only appends to the already-chosen list. -/
theorem relaxedPass_prefix :
    ∀ (cs chosen : List Candidate) (usedN : List String),
      ∃ t, (relaxedPass cs chosen usedN).1 = chosen ++ t := by
  intro cs
  induction cs with
  | nil =>
    intro chosen usedN
    exact ⟨[], by simp [relaxedPass]⟩
  | cons c rest ih =>
    intro chosen usedN
    rw [relaxedPass]
    split_ifs with h1 h2 h3
    · exact ih chosen usedN
    · exact ih chosen usedN
    · exact ⟨[c], rfl⟩
    · obtain ⟨t, ht⟩ := ih (chosen ++ [c]) (usedN ++ namesOf c)
      exact ⟨c :: t, by rw [ht, List.append_assoc]; rfl⟩

/-- The relaxed pass never selects more than 3 candidates. -/
theorem relaxedPass_length_le :
    ∀ (cs chosen : List Candidate) (usedN : List String),
      chosen.length < 3 → (relaxedPass cs chosen usedN).1.length ≤ 3 := by
  intro cs
  induction cs with
  | nil =>
    intro chosen usedN h
    simpa [relaxedPass] using le_of_lt h
  | cons c rest ih =>
    intro chosen usedN h
    rw [relaxedPass]
    split_ifs with h1 h2 h3
    · exact ih chosen usedN h
    · exact ih chosen usedN h
    · exact le_of_eq h3
    · refine ih _ _ ?_
      have hl : (chosen ++ [c]).length = chosen.length + 1 := by simp
      omega

/-- The relaxed pass keeps the selection free of shared fund names. -/
theorem relaxedPass_pairwise :
    ∀ (cs chosen : List Candidate) (usedN : List String),
      chosen.Pairwise NoSharedName →
      (∀ d ∈ chosen, ∀ s ∈ namesOf d, s ∈ usedN) →
      (relaxedPass cs chosen usedN).1.Pairwise NoSharedName := by
  intro cs
  induction cs with
  | nil =>
    intro chosen usedN hp _
    simpa [relaxedPass] using hp
  | cons c rest ih =>
    intro chosen usedN hp hn
    rw [relaxedPass]
    split_ifs with h1 h2 h3
    · exact ih chosen usedN hp hn
    · exact ih chosen usedN hp hn
    · rw [List.pairwise_append]
      refine ⟨hp, List.pairwise_singleton _ _, ?_⟩
      intro a ha b hb
      rw [List.mem_singleton] at hb
      subst hb
      intro s hs hsc
      exact h2 ⟨s, hsc, hn a ha s hs⟩
    · refine ih _ _ ?_ ?_
      · rw [List.pairwise_append]
        refine ⟨hp, List.pairwise_singleton _ _, ?_⟩
        intro a ha b hb
        rw [List.mem_singleton] at hb
        subst hb
        intro s hs hsc
        exact h2 ⟨s, hsc, hn a ha s hs⟩
      · intro d hd s hs
        rcases List.mem_append.mp hd with hd | hd
        · exact List.mem_append.mpr (Or.inl (hn d hd s hs))
        · rw [List.mem_singleton] at hd
          subst hd
          exact List.mem_append.mpr (Or.inr hs)

/-- Removing the occurrences of a duplicate-free sublist leaves exactly the
length difference. -/
theorem length_filter_not_mem_of_sublist :
    ∀ {s l : List Candidate}, s.Sublist l → l.Nodup →
      (l.filter (fun x => decide (x ∉ s))).length = l.length - s.length := by
  intro s l h
  induction h with
  | slnil => intro _; rfl
  | @cons s l a h ih =>
    intro hnd
    have hna : a ∉ l := (List.nodup_cons.mp hnd).1
    have hns : a ∉ s := fun hmem => hna (h.subset hmem)
    have hsl : s.length ≤ l.length := h.length_le
    rw [List.filter_cons_of_pos (by simpa using hns)]
    have := ih (List.nodup_cons.mp hnd).2
    simp only [List.length_cons, this]
    omega
  | @cons₂ s l a h ih =>
    intro hnd
    have hna : a ∉ l := (List.nodup_cons.mp hnd).1
    rw [List.filter_cons_of_neg (by simp)]
    have hcongr : l.filter (fun x => decide (x ∉ a :: s)) =
        l.filter (fun x => decide (x ∉ s)) := by
      apply List.filter_congr
      intro x hx
      have hxa : x ≠ a := fun he => hna (he ▸ hx)
      apply decide_eq_decide.mpr
      simp [hxa]
    rw [hcongr, ih (List.nodup_cons.mp hnd).2]
    simp only [List.length_cons]
    omega

/-- On a duplicate-free, name-disjoint pool, the relaxed pass fills the
selection up to 3 or exhausts the not-yet-chosen candidates. -/
theorem relaxedPass_count :
    ∀ (cs chosen : List Candidate) (usedN : List String),
      cs.Nodup →
      cs.Pairwise NoSharedName →
      (∀ c ∈ cs, c ∉ chosen → ∀ s ∈ namesOf c, s ∉ usedN) →
      chosen.length < 3 →
      (relaxedPass cs chosen usedN).1.length =
        min 3 (chosen.length + (cs.filter (fun x => decide (x ∉ chosen))).length) := by
  intro cs
  induction cs with
  | nil =>
    intro chosen usedN _ _ _ hlen
    simp only [relaxedPass, List.filter_nil, List.length_nil, Nat.add_zero]
    omega
  | cons c rest ih =>
    intro chosen usedN hnd hpw hfresh hlen
    rw [relaxedPass]
    split_ifs with h1 h2 h3
    · rw [List.filter_cons_of_neg (by simpa using h1)]
      exact ih chosen usedN (List.nodup_cons.mp hnd).2 (List.pairwise_cons.mp hpw).2
        (fun d hd => hfresh d (List.mem_cons_of_mem c hd)) hlen
    · exfalso
      obtain ⟨s, hs, hsu⟩ := h2
      exact hfresh c (List.mem_cons_self c rest) h1 s hs hsu
    · rw [List.filter_cons_of_pos (by simpa using h1)]
      have h3' : chosen.length + 1 = 3 := by simpa using h3
      simp only [List.length_append, List.length_singleton, List.length_cons,
        List.length_nil]
      omega
    · rw [List.filter_cons_of_pos (by simpa using h1)]
      have hcnr : c ∉ rest := (List.nodup_cons.mp hnd).1
      have hrec := ih (chosen ++ [c]) (usedN ++ namesOf c)
        (List.nodup_cons.mp hnd).2 (List.pairwise_cons.mp hpw).2
        (fun d hd hdn s hsd => by
          have hdc : d ≠ c := by
            intro he
            exact hdn (he ▸ List.mem_append.mpr (Or.inr (List.mem_singleton.mpr rfl)))
          have hdnc : d ∉ chosen := fun hmem => hdn (List.mem_append.mpr (Or.inl hmem))
          intro hsu
          rcases List.mem_append.mp hsu with hsu | hsu
          · exact hfresh d (List.mem_cons_of_mem c hd) hdnc s hsd hsu
          · exact (List.pairwise_cons.mp hpw).1 d hd s hsu hsd)
        (by
          have : (chosen ++ [c]).length = chosen.length + 1 := by simp
          omega)
      rw [hrec]
      have hcongr : rest.filter (fun x => decide (x ∉ chosen ++ [c])) =
          rest.filter (fun x => decide (x ∉ chosen)) := by
        apply List.filter_congr
        intro x hx
        have hxc : x ≠ c := fun he => hcnr (he ▸ hx)
        apply decide_eq_decide.mpr
        simp [hxc]
      rw [hcongr]
      simp only [List.length_append, List.length_singleton, List.length_cons,
        List.length_nil]
      omega

/-- Sharing no fund name is a symmetric relation. -/
theorem noSharedName_symm : Symmetric NoSharedName := by
  intro a b h s hsb hsa
  exact h s hsa hsb

/-- Any two distinct members of a name-disjoint pool share no fund name. -/
theorem pairwise_noShared_forall {pool : List Candidate}
    (hpw : pool.Pairwise NoSharedName) :
    ∀ a ∈ pool, ∀ b ∈ pool, a ≠ b → NoSharedName a b :=
  fun _ ha _ hb hne => hpw.forall noSharedName_symm ha hb hne

/-- A name-disjoint pool of candidates with non-empty name lists has no
duplicates. -/
theorem nodup_of_pairwise_noShared {pool : List Candidate}
    (hpw : pool.Pairwise NoSharedName) (hne : ∀ c ∈ pool, namesOf c ≠ []) :
    pool.Nodup := by
  rw [List.Nodup]
  refine hpw.imp_of_mem ?_
  intro a b ha _ hab he
  subst he
  obtain ⟨s, hs⟩ := List.exists_mem_of_ne_nil _ (hne a ha)
  exact hab s hs hs

/-- The two passes never select more than 3 candidates. -/
theorem twoPass_length_le (spo : Bool) (cands : List Candidate) :
    (twoPass spo cands).length ≤ 3 := by
  rw [twoPass]
  split_ifs with h
  · exact relaxedPass_length_le cands _ _ h
  · exact strictPass_length_le spo cands [] [] [] (by simp)

/-- On a non-empty pool the two passes select its head first. -/
theorem twoPass_prefix (spo : Bool) (c : Candidate) (rest : List Candidate) :
    ∃ t, twoPass spo (c :: rest) = c :: t := by
  obtain ⟨t1, ht1⟩ := strictPass_first spo c rest
  rw [twoPass]
  split_ifs with h
  · obtain ⟨t2, ht2⟩ := relaxedPass_prefix (c :: rest)
      (strictPass spo (c :: rest) [] [] []).1
      (strictPass spo (c :: rest) [] [] []).2.2
    refine ⟨t1 ++ t2, ?_⟩
    rw [ht2, ht1]
    rfl
  · exact ⟨t1, ht1⟩

/-- The two passes always produce a selection free of shared fund names. -/
theorem twoPass_pairwise (spo : Bool) (cands : List Candidate) :
    (twoPass spo cands).Pairwise NoSharedName := by
  have hsp := strictPass_pairwise spo cands [] [] []
    (List.Pairwise.nil) (by simp)
  rw [twoPass]
  split_ifs with h
  · exact relaxedPass_pairwise cands _ _ hsp.1 hsp.2
  · exact hsp.1

/-- The Diversified Selector never returns more than 3 candidates. -/
theorem diversify_length_le (spo : Bool) (cands : List Candidate) :
    (diversify spo cands).length ≤ 3 := by
  rw [diversify]
  split_ifs with h
  · rw [List.length_take]
    exact min_le_left _ _
  · exact twoPass_length_le spo cands

/-- On a non-empty pool the Diversified Selector returns its head first, and
the take-top-3 fallback is never reached. -/
theorem diversify_prefix (spo : Bool) (c : Candidate) (rest : List Candidate) :
    ∃ t, diversify spo (c :: rest) = c :: t ∧
      twoPass spo (c :: rest) = c :: t := by
  obtain ⟨t, ht⟩ := twoPass_prefix spo c rest
  refine ⟨t, ?_, ht⟩
  rw [diversify, ht]
  simp

/-- The Diversified Selector never returns two candidates sharing a fund
name. -/
theorem diversify_pairwise (spo : Bool) (cands : List Candidate) :
    (diversify spo cands).Pairwise NoSharedName := by
  cases cands with
  | nil =>
    rw [diversify]
    split_ifs with h
    · simp
    · exact twoPass_pairwise spo []
  | cons c rest =>
    obtain ⟨t, ht, ht2⟩ := diversify_prefix spo c rest
    rw [ht, ← ht2]
    exact twoPass_pairwise spo (c :: rest)

/-- On a pool of candidates with non-empty, pairwise-disjoint fund-name
sets, the Diversified Selector returns exactly min 3 (pool size)
candidates. -/
theorem diversify_count (spo : Bool) (pool : List Candidate)
    (hpw : pool.Pairwise NoSharedName) (hne : ∀ c ∈ pool, namesOf c ≠ []) :
    (diversify spo pool).length = min 3 pool.length := by
  have hnd := nodup_of_pairwise_noShared hpw hne
  rw [diversify]
  split_ifs with hfb
  · rw [List.length_take]
  · obtain ⟨t, hpre, hsub⟩ := strictPass_prefix spo pool [] [] []
    rw [List.nil_append] at hpre
    have htlen : t.length ≤ pool.length := hsub.length_le
    rw [twoPass]
    split_ifs with h
    · have husedn := strictPass_usedN spo pool [] [] [] (by simp)
      have hcount := relaxedPass_count pool (strictPass spo pool [] [] []).1
        (strictPass spo pool [] [] []).2.2 hnd hpw
        (by
          intro c hc hcn s hs hsu
          obtain ⟨d, hd, hsd⟩ := (husedn s).mp hsu
          have hdp : d ∈ pool := hsub.subset (hpre ▸ hd)
          have hne2 : d ≠ c := fun he => hcn (he ▸ hd)
          exact pairwise_noShared_forall hpw d hdp c hc hne2 s hsd hs)
        h
      rw [hcount, hpre]
      have hflen := length_filter_not_mem_of_sublist hsub hnd
      rw [hflen]
      omega
    · have hle : (strictPass spo pool [] [] []).1.length ≤ 3 :=
        strictPass_length_le spo pool [] [] [] (by simp)
      have h3 : (strictPass spo pool [] [] []).1.length = 3 := by omega
      rw [h3]
      have : t.length = 3 := by rw [← h3, hpre]
      omega

/-- The no-valid-combinations message is never the empty string. -/
theorem noCombMsg_ne_empty : noCombMsg ≠ "" := by decide

/-- C2: on every terminal outcome of `compute`, exactly one of the returned
pair is populated: either a non-empty ranked list of at most 3 candidates
with an empty error message, or an empty list with a non-empty message. -/
theorem compute_exactly_one_populated (funds : List Fund) (ctx : Ctx)
    (spo : Bool) (n : ℕ) :
    ((compute funds ctx spo n).1 ≠ [] ∧ (compute funds ctx spo n).1.length ≤ 3 ∧
      (compute funds ctx spo n).2 = "") ∨
    ((compute funds ctx spo n).1 = [] ∧ (compute funds ctx spo n).2 ≠ "") := by
  rw [compute]
  split_ifs with h1 h2
  · exact Or.inr ⟨rfl, insufficientMsg_ne_empty n funds.length⟩
  · exact Or.inr ⟨rfl, noCombMsg_ne_empty⟩
  · left
    obtain ⟨c, rest, hcr⟩ := List.exists_cons_of_ne_nil (sortByScore_ne_nil h2)
    refine ⟨?_, diversify_length_le spo _, rfl⟩
    show diversify spo (sortByScore (candidatePool ctx spo n funds)) ≠ []
    rw [hcr]
    obtain ⟨t, ht, _⟩ := diversify_prefix spo c rest
    rw [ht]
    exact List.cons_ne_nil c t

/-- Witness for C2 at a concrete one-fund catalog with n=1. -/
theorem compute_exactly_one_populated_witness :
    ((compute [⟨"s", "X", "p", 50, 50, 20, 5, 1⟩]
        ⟨⟨40, 60, 30, 7⟩, ⟨1, 1, 1, 1⟩, 0, 0, [], 70⟩ false 1).1 ≠ [] ∧
      (compute [⟨"s", "X", "p", 50, 50, 20, 5, 1⟩]
        ⟨⟨40, 60, 30, 7⟩, ⟨1, 1, 1, 1⟩, 0, 0, [], 70⟩ false 1).1.length ≤ 3 ∧
      (compute [⟨"s", "X", "p", 50, 50, 20, 5, 1⟩]
        ⟨⟨40, 60, 30, 7⟩, ⟨1, 1, 1, 1⟩, 0, 0, [], 70⟩ false 1).2 = "") ∨
    ((compute [⟨"s", "X", "p", 50, 50, 20, 5, 1⟩]
        ⟨⟨40, 60, 30, 7⟩, ⟨1, 1, 1, 1⟩, 0, 0, [], 70⟩ false 1).1 = [] ∧
      (compute [⟨"s", "X", "p", 50, 50, 20, 5, 1⟩]
        ⟨⟨40, 60, 30, 7⟩, ⟨1, 1, 1, 1⟩, 0, 0, [], 70⟩ false 1).2 ≠ "") :=
  compute_exactly_one_populated _ _ false 1

/-- C7: the selection returned by `compute` never contains the same fund
name in two different selected candidates. -/
theorem compute_no_duplicate_names (funds : List Fund) (ctx : Ctx)
    (spo : Bool) (n : ℕ) :
    (compute funds ctx spo n).1.Pairwise NoSharedName := by
  rw [compute]
  split_ifs with h1 h2
  · exact List.Pairwise.nil
  · exact List.Pairwise.nil
  · exact diversify_pairwise spo _

/-- C10: whenever the candidate pool is non-empty (and the size guard
passes), the first candidate `compute` returns has globally minimal score
over the pool, and the two diversity passes already return a non-empty
selection, so the take-top-3 fallback is never reached with an empty
selection. -/
theorem compute_first_minimal (funds : List Fund) (ctx : Ctx) (spo : Bool)
    (n : ℕ) (hn : n ≤ funds.length)
    (hp : candidatePool ctx spo n funds ≠ []) :
    ∃ c t, (compute funds ctx spo n).1 = c :: t ∧
      c ∈ candidatePool ctx spo n funds ∧
      (∀ d ∈ candidatePool ctx spo n funds, c.score ≤ d.score) ∧
      twoPass spo (sortByScore (candidatePool ctx spo n funds)) ≠ [] := by
  have h1 : ¬ funds.length < n := not_lt.mpr hn
  obtain ⟨c, rest, hcr⟩ := List.exists_cons_of_ne_nil (sortByScore_ne_nil hp)
  obtain ⟨t, htd, htp⟩ := diversify_prefix spo c rest
  refine ⟨c, t, ?_, ?_, ?_, ?_⟩
  · rw [compute, if_neg h1, if_neg hp]
    show diversify spo (sortByScore (candidatePool ctx spo n funds)) = c :: t
    rw [hcr, htd]
  · have hm : c ∈ sortByScore (candidatePool ctx spo n funds) := by
      rw [hcr]
      exact List.mem_cons_self c rest
    exact (sortByScore_perm _).subset hm
  · intro d hd
    have hd' : d ∈ sortByScore (candidatePool ctx spo n funds) :=
      (sortByScore_perm _).mem_iff.mpr hd
    rw [hcr] at hd'
    rcases List.mem_cons.mp hd' with rfl | hd'
    · exact le_refl _
    · have hs := sortByScore_sorted (candidatePool ctx spo n funds)
      rw [hcr] at hs
      exact (List.sorted_cons.mp hs).1 d hd'
  · rw [hcr, htp]
    exact List.cons_ne_nil c t

/-- Witness for C10 at a concrete one-fund catalog with n=1. -/
theorem compute_first_minimal_witness :
    ∃ c t, (compute [⟨"s", "X", "p", 50, 50, 20, 5, 1⟩]
        ⟨⟨40, 60, 30, 7⟩, ⟨1, 1, 1, 1⟩, 0, 0, [], 70⟩ false 1).1 = c :: t ∧
      c ∈ candidatePool ⟨⟨40, 60, 30, 7⟩, ⟨1, 1, 1, 1⟩, 0, 0, [], 70⟩ false 1
        [⟨"s", "X", "p", 50, 50, 20, 5, 1⟩] ∧
      (∀ d ∈ candidatePool ⟨⟨40, 60, 30, 7⟩, ⟨1, 1, 1, 1⟩, 0, 0, [], 70⟩ false 1
        [⟨"s", "X", "p", 50, 50, 20, 5, 1⟩], c.score ≤ d.score) ∧
      twoPass false (sortByScore (candidatePool
        ⟨⟨40, 60, 30, 7⟩, ⟨1, 1, 1, 1⟩, 0, 0, [], 70⟩ false 1
        [⟨"s", "X", "p", 50, 50, 20, 5, 1⟩])) ≠ [] :=
  compute_first_minimal _ _ false 1 (by decide) (by decide)

/-- C1 (amended): the Diversified Selector returns at most 3 candidates;
when the pool's candidates carry non-empty, pairwise-disjoint fund-name
sets, it returns exactly min 3 (pool size), but when candidates share fund
names it can return fewer than 3 from a pool of 3 or more. -/
theorem diversified_selector_bounds (spo : Bool) (pool : List Candidate) :
    (diversify spo pool).length ≤ 3 ∧
      (pool.Pairwise NoSharedName → (∀ c ∈ pool, namesOf c ≠ []) →
        (diversify spo pool).length = min 3 pool.length) :=
  ⟨diversify_length_le spo pool, fun hpw hne => diversify_count spo pool hpw hne⟩

/-- Witness for C1 on a concrete name-disjoint two-candidate pool. -/
theorem diversified_selector_bounds_witness :
    List.Pairwise NoSharedName
        [(⟨[⟨"s", "X", "p", 0, 0, 0, 0, 0⟩], [1], ⟨0, 0, 0, 0, 0⟩, 0, 0, 0⟩ :
            Candidate),
          ⟨[⟨"s", "Y", "q", 0, 0, 0, 0, 0⟩], [1], ⟨0, 0, 0, 0, 0⟩, 0, 0, 0⟩] ∧
      (∀ c ∈ ([(⟨[⟨"s", "X", "p", 0, 0, 0, 0, 0⟩], [1], ⟨0, 0, 0, 0, 0⟩, 0, 0, 0⟩ :
            Candidate),
          ⟨[⟨"s", "Y", "q", 0, 0, 0, 0, 0⟩], [1], ⟨0, 0, 0, 0, 0⟩, 0, 0, 0⟩] :
            List Candidate), namesOf c ≠ []) ∧
      (diversify false
        [⟨[⟨"s", "X", "p", 0, 0, 0, 0, 0⟩], [1], ⟨0, 0, 0, 0, 0⟩, 0, 0, 0⟩,
          ⟨[⟨"s", "Y", "q", 0, 0, 0, 0, 0⟩], [1], ⟨0, 0, 0, 0, 0⟩, 0, 0, 0⟩]).length =
        min 3 2 :=
  ⟨by decide, by decide,
    (diversified_selector_bounds false _).2 (by decide) (by decide)⟩

set_option maxRecDepth 1000000 in
/-- Counterexample to C1 as stated: a 3-fund catalog with n=2 yields a
candidate pool of 3 pair-candidates, yet the selector returns only 1 of
them, because every pair shares a fund name with the selected pair. -/
theorem diversified_selector_counterexample :
    (candidatePool ⟨⟨0, 0, 0, 0⟩, ⟨1, 1, 1, 1⟩, 0, 0, [], 70⟩ false 2
        [⟨"s", "A", "pa", 0, 0, 0, 0, 0⟩, ⟨"s", "B", "pb", 0, 0, 0, 0, 0⟩,
          ⟨"s", "C", "pc", 0, 0, 0, 0, 0⟩]).length = 3 ∧
      (compute
        [⟨"s", "A", "pa", 0, 0, 0, 0, 0⟩, ⟨"s", "B", "pb", 0, 0, 0, 0, 0⟩,
          ⟨"s", "C", "pc", 0, 0, 0, 0, 0⟩]
        ⟨⟨0, 0, 0, 0⟩, ⟨1, 1, 1, 1⟩, 0, 0, [], 70⟩ false 2).1.length = 1 :=
  ⟨by decide, by decide⟩

/-- C6: with n=2 over a catalog of size F, the pool holds one best-split
candidate per provider-surviving pair — at most C(F,2) in total, each
minimizing the score over the 101-point weight grid — and is non-empty as
soon as some pair survives the provider filter. -/
theorem pair_search_pool_count (funds : List Fund) (ctx : Ctx) (spo : Bool) :
    (pool2 ctx spo funds).length = ((combos2 funds).filter (pairOk spo)).length
    ∧ (pool2 ctx spo funds).length ≤ Nat.choose funds.length 2
    ∧ (∀ p ∈ combos2 funds, pairOk spo p = true →
        ∃ c, best2 ctx p.1 p.2 = some c ∧
          ∀ w1 ∈ grid2, c.score ≤ (evalCand ctx [p.1, p.2] [w1, 1 - w1]).score)
    ∧ (2 ≤ funds.length → (∃ p ∈ combos2 funds, pairOk spo p = true) →
        pool2 ctx spo funds ≠ []) := by
  have hbest : ∀ p : Fund × Fund, pairOk spo p = true →
      ∃ c, best2 ctx p.1 p.2 = some c :=
    fun p _ => (best2_isSome ctx p.1 p.2).imp (fun c h => h.1)
  have hlen : (pool2 ctx spo funds).length =
      ((combos2 funds).filter (pairOk spo)).length := by
    rw [pool2]
    exact filterMap_guard_length (pairOk spo) (fun p => best2 ctx p.1 p.2)
      hbest (combos2 funds)
  refine ⟨hlen, ?_, ?_, ?_⟩
  · rw [hlen, ← combos2_length funds]
    exact List.length_filter_le _ _
  · intro p _ hok
    obtain ⟨c, hc, _, hmin⟩ := best2_isSome ctx p.1 p.2
    exact ⟨c, hc, hmin⟩
  · intro _ hex
    rw [pool2]
    exact filterMap_guard_ne_nil (pairOk spo) (fun p => best2 ctx p.1 p.2)
      hbest (combos2 funds) hex

/-- Witness for C6 on a concrete two-fund catalog. -/
theorem pair_search_pool_count_witness :
    2 ≤ ([⟨"s", "X", "p", 0, 0, 0, 0, 0⟩,
        (⟨"s", "Y", "q", 0, 0, 0, 0, 0⟩ : Fund)] : List Fund).length ∧
      (∃ p ∈ combos2 [(⟨"s", "X", "p", 0, 0, 0, 0, 0⟩ : Fund),
        ⟨"s", "Y", "q", 0, 0, 0, 0, 0⟩], pairOk false p = true) ∧
      pool2 ⟨⟨0, 0, 0, 0⟩, ⟨1, 1, 1, 1⟩, 0, 0, [], 70⟩ false
        [⟨"s", "X", "p", 0, 0, 0, 0, 0⟩, ⟨"s", "Y", "q", 0, 0, 0, 0, 0⟩] ≠ [] :=
  ⟨by decide, by decide,
    (pair_search_pool_count _ _ false).2.2.2 (by decide) (by decide)⟩

/-- The Batteries rational floor agrees with the Mathlib floor. -/
theorem rat_floor_eq (q : ℚ) : q.floor = ⌊q⌋ := rfl

/-- Rounding to 3 decimals is the identity on integer multiples of 1/1000. -/
theorem round3_int_div (m : ℤ) : round3 ((m : ℚ) / 1000) = (m : ℚ) / 1000 := by
  rw [round3, show ((m : ℚ) / 1000 * 1000 + 1 / 2) = (m : ℚ) + 1 / 2 by ring,
    rat_floor_eq, Int.floor_int_add]
  norm_num

/-- The n=3 per-coordinate grid consists of the 21 multiples of 0.05 from
0.00 to 1.00. -/
theorem grid1_eq : grid1 = (List.range 21).map (fun i : ℕ => (i : ℚ) / 20) := by
  decide

/-- Every grid point is a multiple i/20 with i at most 20. -/
theorem mem_grid1 {w : ℚ} (h : w ∈ grid1) :
    ∃ i : ℕ, i ≤ 20 ∧ w = (i : ℚ) / 20 := by
  rw [grid1_eq] at h
  rw [List.mem_map] at h
  obtain ⟨i, hi, rfl⟩ := h
  rw [List.mem_range] at hi
  exact ⟨i, by omega, rfl⟩

/-- On grid coordinates the rounded third weight is exact. -/
theorem round3_grid_diff {w1 w2 : ℚ} (h1 : w1 ∈ grid1) (h2 : w2 ∈ grid1) :
    round3 (1 - w1 - w2) = 1 - w1 - w2 := by
  obtain ⟨i, hi, rfl⟩ := mem_grid1 h1
  obtain ⟨j, hj, rfl⟩ := mem_grid1 h2
  have he : 1 - (i : ℚ) / 20 - (j : ℚ) / 20 =
      ((1000 - 50 * i - 50 * j : ℤ) : ℚ) / 1000 := by
    push_cast
    ring
  rw [he, round3_int_div]

/-- Membership in the evaluated weight triples, by unfolding the simplex
loops. -/
theorem mem_weightTriples_iff (t : ℚ × ℚ × ℚ) :
    t ∈ weightTriples ↔ ∃ w1 ∈ grid1, ∃ w2 ∈ grid1,
      ¬(round3 (1 - w1 - w2) < -tol ∨ round3 (1 - w1 - w2) > 1 + tol) ∧
      t = (w1, w2, max 0 (min 1 (round3 (1 - w1 - w2)))) := by
  rw [weightTriples, List.mem_flatten]
  constructor
  · rintro ⟨l, hl, hm⟩
    rw [List.mem_map] at hl
    obtain ⟨w1, hw1, rfl⟩ := hl
    rw [List.mem_filterMap] at hm
    obtain ⟨w2, hw2, hsome⟩ := hm
    by_cases hc : round3 (1 - w1 - w2) < -tol ∨ round3 (1 - w1 - w2) > 1 + tol
    · rw [if_pos hc] at hsome
      exact absurd hsome (by simp)
    · rw [if_neg hc] at hsome
      exact ⟨w1, hw1, w2, hw2, hc, (Option.some_inj.mp hsome).symm⟩
  · rintro ⟨w1, hw1, w2, hw2, hc, rfl⟩
    refine ⟨grid1.filterMap (fun w2 =>
      if round3 (1 - w1 - w2) < -tol ∨ round3 (1 - w1 - w2) > 1 + tol then none
      else some (w1, w2, max 0 (min 1 (round3 (1 - w1 - w2))))), ?_, ?_⟩
    · rw [List.mem_map]
      exact ⟨w1, hw1, rfl⟩
    · rw [List.mem_filterMap]
      exact ⟨w2, hw2, by rw [if_neg hc]⟩

/-- C5: in the n=3 search, w1 and w2 range over exactly the 21 grid points
0.00, 0.05, ..., 1.00; the third weight is 1 - w1 - w2, skipped when it
falls outside [0,1] beyond the 1e-9 tolerance and otherwise clamped into
[0,1]; and the clamping never surfaces as an error: `compute` with n=3 only
errors for an insufficient catalog or an empty pool. -/
theorem simplex_grid_spec :
    grid1 = (List.range 21).map (fun i : ℕ => (i : ℚ) / 20)
    ∧ (∀ t ∈ weightTriples, t.1 ∈ grid1 ∧ t.2.1 ∈ grid1 ∧
        t.2.2 = max 0 (min 1 (1 - t.1 - t.2.1)) ∧ 0 ≤ t.2.2 ∧ t.2.2 ≤ 1)
    ∧ (∀ w1 ∈ grid1, ∀ w2 ∈ grid1,
        ((1 - w1 - w2 < -tol ∨ 1 - w1 - w2 > 1 + tol) →
          ∀ w3, (w1, w2, w3) ∉ weightTriples)
        ∧ (¬(1 - w1 - w2 < -tol ∨ 1 - w1 - w2 > 1 + tol) →
            (w1, w2, max 0 (min 1 (1 - w1 - w2))) ∈ weightTriples))
    ∧ (∀ (funds : List Fund) (ctx : Ctx) (spo : Bool),
        (compute funds ctx spo 3).2 = "" ∨
        ((compute funds ctx spo 3).2 = insufficientMsg 3 funds.length ∧
          funds.length < 3) ∨
        ((compute funds ctx spo 3).2 = noCombMsg ∧
          candidatePool ctx spo 3 funds = [])) := by
  refine ⟨grid1_eq, ?_, ?_, ?_⟩
  · intro t ht
    obtain ⟨w1, hw1, w2, hw2, hc, rfl⟩ := (mem_weightTriples_iff t).mp ht
    have hr := round3_grid_diff hw1 hw2
    refine ⟨hw1, hw2, by rw [hr], le_max_left _ _, ?_⟩
    exact max_le (by norm_num) (min_le_left _ _)
  · intro w1 hw1 w2 hw2
    have hr := round3_grid_diff hw1 hw2
    constructor
    · intro hc w3 hmem
      obtain ⟨w1', hw1', w2', hw2', hc', heq⟩ :=
        (mem_weightTriples_iff (w1, w2, w3)).mp hmem
      have he1 : w1 = w1' := congrArg Prod.fst heq
      have he2 : w2 = w2' := congrArg Prod.fst (congrArg Prod.snd heq)
      rw [← he1, ← he2, hr] at hc'
      exact hc' hc
    · intro hc
      refine (mem_weightTriples_iff _).mpr ⟨w1, hw1, w2, hw2, by rw [hr]; exact hc, ?_⟩
      rw [hr]
  · intro funds ctx spo
    rw [compute]
    split_ifs with h1 h2
    · exact Or.inr (Or.inl ⟨rfl, h1⟩)
    · exact Or.inr (Or.inr ⟨rfl, h2⟩)
    · exact Or.inl rfl

/-- Witness for C5: the corner w1 = w2 = 0 passes the tolerance check and
its clamped triple is enumerated. -/
theorem simplex_grid_spec_witness :
    ((0 : ℚ) ∈ grid1) ∧
      ¬((1 : ℚ) - 0 - 0 < -tol ∨ (1 : ℚ) - 0 - 0 > 1 + tol) ∧
      ((0 : ℚ), (0 : ℚ), max 0 (min 1 ((1 : ℚ) - 0 - 0))) ∈ weightTriples :=
  ⟨by decide, by decide,
    (simplex_grid_spec.2.2.1 0 (by decide) 0 (by decide)).2 (by decide)⟩
